import Mathlib

/-!
Verification of the detexe black-box PE-manipulation strategies
(`detexe/pea/blackbox/`): the Padding, Header and GAMMA (raw-append and
section-injection) decoders, shallowly embedded over byte lists (`List ℤ`)
with latent vectors as rational lists (`List ℚ`).
-/

namespace Detexe

/-- Truncation toward zero on rationals, mirroring numpy's `astype(np.int)`
conversion of a float array. -/
def truncToInt (q : ℚ) : ℤ := if 0 ≤ q then ⌊q⌋ else ⌈q⌉

/-- Python's builtin `round` on a float value: round half to even. -/
def roundHalfEven (q : ℚ) : ℤ :=
  if q - ⌊q⌋ < 1 / 2 then ⌊q⌋
  else if 1 / 2 < q - ⌊q⌋ then ⌊q⌋ + 1
  else if Even ⌊q⌋ then ⌊q⌋ else ⌊q⌋ + 1

/-- Byte-buffer well-formedness: every value lies in [0, 255]. -/
def bytesValid (x : List ℤ) : Prop := ∀ b ∈ x, 0 ≤ b ∧ b ≤ 255

/-- Modelled from the spec: the engine clamps latent components into [0,1]
before decoding (spec section 7, "out-of-range components are clamped, never
propagated as errors"); the clamping lives in the base `CBlackBoxProblem`
engine, which is not under src/. -/
def clamp01 (q : ℚ) : ℚ := max 0 (min 1 q)

/-- `CBlackBoxPaddingEvasionProblem.apply_feasible_manipulations`:
`byte_values = (t * 255).astype(np.int); x_adv = x.append(byte_values)`. -/
def paddingApply (t : List ℚ) (x : List ℤ) : List ℤ :=
  x ++ t.map (fun ti => truncToInt (ti * 255))

/-- State of `CBlackBoxHeaderEvasionProblem` relevant to decoding. -/
structure HeaderProblem where
  optimize_all_dos : Bool
  invalid_value : ℤ
  indexes_to_perturb : List ℕ
  latent_space_size : ℕ
deriving DecidableEq

/-- `CBlackBoxHeaderEvasionProblem.__init__`: `latent_space_size = 58`,
`indexes_to_perturb = list(range(2, 60))`. -/
def headerInit (optimize_all_dos : Bool) (invalid_value : ℤ) : HeaderProblem :=
  { optimize_all_dos := optimize_all_dos
    invalid_value := invalid_value
    indexes_to_perturb := List.range' 2 58
    latent_space_size := 58 }

/-- `struct.unpack("<I", bytes(x[0, 60:64].tolist()[0]))[0]`: the 4-byte
little-endian integer at offset 60; `none` when fewer than 4 bytes are
available there (`struct.error` in Python). -/
def readPEPointer (x : List ℤ) : Option ℕ :=
  match x.drop 60 with
  | b0 :: b1 :: b2 :: b3 :: _ =>
      some (b0.toNat + 256 * b1.toNat + 65536 * b2.toNat + 16777216 * b3.toNat)
  | _ => none

/-- `CBlackBoxHeaderEvasionProblem.init_starting_point`: resets
`indexes_to_perturb` to `range(2, 60)`; when `optimize_all_dos`, extends it by
`range(64, pe_index)` where `pe_index` is the little-endian pointer at offset
60 (no bounds check is performed on `pe_index`); finally sets
`latent_space_size = len(indexes_to_perturb)`. The trailing delegation to the
base class does not touch these fields. -/
def HeaderProblem.init_starting_point (p : HeaderProblem) (x : List ℤ) :
    Option HeaderProblem :=
  if p.optimize_all_dos then
    match readPEPointer x with
    | none => none
    | some pe =>
        let idx := List.range' 2 58 ++ List.range' 64 (pe - 64)
        some { p with indexes_to_perturb := idx, latent_space_size := idx.length }
  else
    some { p with indexes_to_perturb := List.range' 2 58, latent_space_size := 58 }

/-- `CBlackBoxHeaderEvasionProblem.apply_feasible_manipulations`:
`byte_values = (t * 255).astype(np.int)`, then
`for i, index in enumerate(indexes_to_perturb): x_adv[0, index] = byte_values[i]`. -/
def headerApply (p : HeaderProblem) (t : List ℚ) (x : List ℤ) : List ℤ :=
  (p.indexes_to_perturb.zip (t.map fun ti => truncToInt (ti * 255))).foldl
    (fun acc iv => acc.set iv.1 iv.2) x

/-- Header-problem states as produced by the constructor or by any call to
`init_starting_point`. -/
def HeaderProblem.Reachable (q : HeaderProblem) : Prop :=
  (∃ o v, q = headerInit o v) ∨
  ∃ (p : HeaderProblem) (x : List ℤ), p.init_starting_point x = some q

/-- `int(round(len(content) * t_i))`: the number of bytes taken from a corpus
entry's content for latent component `ti`. -/
def takeAmount (content : List ℤ) (ti : ℚ) : ℤ :=
  roundHalfEven ((content.length : ℚ) * ti)

/-- `CGammaEvasionProblem.apply_feasible_manipulations`: for each `i` in order,
append `section_population[i][: int(round(len(content) * t[i]))]` to the
original bytes. -/
def gammaApply (pop : List (List ℤ)) (t : List ℚ) (x : List ℤ) : List ℤ :=
  (pop.zip t).foldl (fun acc c => acc ++ c.1.take (takeAmount c.1 c.2).toNat) x

/-- A PE section at the parsed level: its name and content bytes. -/
structure PESection where
  name : String
  content : List ℤ

/-- A PE binary at the parsed level (`lief.PE.Binary`): its section list.
`lief.PE.Builder.build` followed by `lief.PE.parse` preserves this list
(round-trip property; lief is an external library). -/
structure PEBinary where
  sections : List PESection

/-- Modelled from the spec: building the binary with PEBuilder and re-parsing
the produced bytes yields the same section list (spec sections 4.4 and 4.5);
lief's `Builder`/`parse` are external library code, so binaries are tracked at
the parsed level and the round trip is the identity. -/
def buildAndReparse (b : PEBinary) : PEBinary := b

/-- State of `CGammaSectionsEvasionProblem` relevant to decoding. -/
structure SectionsProblem where
  section_population : List (List ℤ)
  latent_space_size : ℕ
  random_names : Bool
  names_ : List (List String)
  best_names_ : List String

/-- `CGammaSectionsEvasionProblem.__init__`: the base constructor sets
`latent_space_size = len(section_population)`; the subclass stores
`random_names` and starts with empty `names_` and `best_names_`. -/
def sectionsInit (pop : List (List ℤ)) (random_names : Bool) : SectionsProblem :=
  { section_population := pop
    latent_space_size := pop.length
    random_names := random_names
    names_ := []
    best_names_ := [] }

/-- The name chosen for the `i`-th injected section: `best_names_[i]` when
`best_names_ != []`, otherwise a fresh random 8-character name, modelled by the
stream `fresh`. -/
def sectionName (sp : SectionsProblem) (fresh : ℕ → String) (i : ℕ) : String :=
  if sp.best_names_ = [] then fresh i else sp.best_names_.getD i ""

/-- `CGammaSectionsEvasionProblem.apply_feasible_manipulations`: for each `i`
in `range(latent_space_size)`, take the rounded prefix of
`section_population[i]`, choose its name via `sectionName`, and add the new
section to the parsed binary; append the used name list to `names_`; rebuild
with `lief.PE.Builder`. Returns the updated problem state and the rebuilt
binary. -/
def sectionsApply (sp : SectionsProblem) (fresh : ℕ → String) (t : List ℚ)
    (b : PEBinary) : SectionsProblem × PEBinary :=
  let names := (List.range sp.latent_space_size).map (sectionName sp fresh)
  let added := (List.range sp.latent_space_size).map fun i =>
    PESection.mk (sectionName sp fresh i)
      ((sp.section_population.getD i []).take
        (takeAmount (sp.section_population.getD i []) (t.getD i 0)).toNat)
  ({ sp with names_ := sp.names_ ++ [names] },
   { sections := b.sections ++ added })

/-- First-occurrence minimum value of a fitness list (`np.min`). -/
def listMin : List ℚ → ℚ
  | [] => 0
  | [a] => a
  | a :: b :: l => min a (listMin (b :: l))

/-- `np.argmin`: index of the first occurrence of the minimum. -/
def argmin : List ℚ → ℕ
  | [] => 0
  | [_] => 0
  | a :: b :: l => if a ≤ listMin (b :: l) then 0 else argmin (b :: l) + 1

/-- `CGammaSectionsEvasionProblem._export_internal_results`:
`best_names_ = names_[int(np.argmin(fitness_[1:]))]`. Modelled from the spec:
the base class `CBlackBoxProblem` (not under src/) keeps the fitness history
`fitness_` with the unperturbed baseline at index 0 and one entry per later
candidate, so `names_[j]` belongs to the candidate scored at `fitness_[j+1]`. -/
def exportInternalResults (sp : SectionsProblem) (fitness : List ℚ) :
    SectionsProblem :=
  { sp with best_names_ := sp.names_.getD (argmin (fitness.drop 1)) [] }

/- ### Arithmetic lemmas -/

theorem truncToInt_eq_floor {q : ℚ} (h : 0 ≤ q) : truncToInt q = ⌊q⌋ := by
  simp [truncToInt, h]

theorem floor_le_roundHalfEven (q : ℚ) : ⌊q⌋ ≤ roundHalfEven q := by
  unfold roundHalfEven
  split_ifs <;> omega

theorem roundHalfEven_le_floor_add_one (q : ℚ) : roundHalfEven q ≤ ⌊q⌋ + 1 := by
  unfold roundHalfEven
  split_ifs <;> omega

theorem roundHalfEven_nonneg {q : ℚ} (h : 0 ≤ q) : 0 ≤ roundHalfEven q := by
  have := floor_le_roundHalfEven q
  have h0 : (0 : ℤ) ≤ ⌊q⌋ := Int.floor_nonneg.mpr h
  omega

theorem roundHalfEven_le_of_le_intCast {q : ℚ} {n : ℤ} (h : q ≤ (n : ℚ)) :
    roundHalfEven q ≤ n := by
  have hf : ⌊q⌋ ≤ n := by
    have := Int.floor_le_floor h
    simpa using this
  rcases eq_or_lt_of_le hf with hEq | hLt
  · have h1 : q - (n : ℚ) < 1 / 2 := by linarith
    unfold roundHalfEven
    rw [hEq, if_pos h1]
  · have := roundHalfEven_le_floor_add_one q
    omega

theorem roundHalfEven_mono {p q : ℚ} (h : p ≤ q) :
    roundHalfEven p ≤ roundHalfEven q := by
  rcases lt_or_eq_of_le (Int.floor_le_floor h) with hf | hf
  · calc roundHalfEven p ≤ ⌊p⌋ + 1 := roundHalfEven_le_floor_add_one p
      _ ≤ ⌊q⌋ := by omega
      _ ≤ roundHalfEven q := floor_le_roundHalfEven q
  · unfold roundHalfEven
    rw [hf]
    split_ifs <;> first | omega | linarith

theorem roundHalfEven_intCast (n : ℤ) : roundHalfEven (n : ℚ) = n := by
  unfold roundHalfEven
  have h : ((n : ℚ) - ⌊(n : ℚ)⌋) = 0 := by simp
  rw [h]
  norm_num

/-- Scaling a latent component in [0,1] by 255 and truncating gives a byte in
[0, 255]. -/
theorem truncToInt_byte_range {ti : ℚ} (h0 : 0 ≤ ti) (h1 : ti ≤ 1) :
    0 ≤ truncToInt (ti * 255) ∧ truncToInt (ti * 255) ≤ 255 := by
  have hnn : (0 : ℚ) ≤ ti * 255 := by positivity
  rw [truncToInt_eq_floor hnn]
  constructor
  · exact Int.floor_nonneg.mpr hnn
  · have h2 : ti * 255 ≤ ((255 : ℤ) : ℚ) := by push_cast; nlinarith
    have := Int.floor_le_floor h2
    simpa using this

theorem clamp01_mem (q : ℚ) : 0 ≤ clamp01 q ∧ clamp01 q ≤ 1 := by
  unfold clamp01
  constructor
  · exact le_max_left 0 _
  · simp [max_le_iff]

theorem takeAmount_nonneg {c : List ℤ} {ti : ℚ} (h0 : 0 ≤ ti) :
    0 ≤ takeAmount c ti :=
  roundHalfEven_nonneg (by positivity)

theorem takeAmount_le_length {c : List ℤ} {ti : ℚ} (h1 : ti ≤ 1) :
    takeAmount c ti ≤ (c.length : ℤ) := by
  apply roundHalfEven_le_of_le_intCast
  push_cast
  nlinarith [show (0 : ℚ) ≤ (c.length : ℚ) from by positivity]

theorem takeAmount_mono (c : List ℤ) {a b : ℚ} (h : a ≤ b) :
    takeAmount c a ≤ takeAmount c b :=
  roundHalfEven_mono (mul_le_mul_of_nonneg_left h (by positivity))

/- ### List lemmas -/

theorem foldl_append_eq_flatten {α β : Type} (f : β → List α) :
    ∀ (l : List β) (x : List α),
      l.foldl (fun acc c => acc ++ f c) x = x ++ (l.map f).flatten
  | [], x => by simp
  | c :: l, x => by
    simp only [List.foldl_cons, List.map_cons, List.flatten_cons,
      foldl_append_eq_flatten f l, List.append_assoc]

theorem length_foldl_set :
    ∀ (l : List (ℕ × ℤ)) (x : List ℤ),
      (l.foldl (fun acc iv => acc.set iv.1 iv.2) x).length = x.length
  | [], _ => rfl
  | iv :: l, x => by
    simp only [List.foldl_cons, length_foldl_set l, List.length_set]

theorem mem_foldl_set {b : ℤ} :
    ∀ (l : List (ℕ × ℤ)) (x : List ℤ),
      b ∈ l.foldl (fun acc iv => acc.set iv.1 iv.2) x →
      b ∈ x ∨ b ∈ l.map Prod.snd
  | [], _, h => Or.inl h
  | iv :: l, x, h => by
    rcases mem_foldl_set l _ h with h1 | h1
    · rcases List.mem_or_eq_of_mem_set h1 with h2 | h2
      · exact Or.inl h2
      · exact Or.inr (by simp [h2])
    · exact Or.inr (by simp [h1])

theorem getElem?_foldl_set {j : ℕ} :
    ∀ (l : List (ℕ × ℤ)) (x : List ℤ), j ∉ l.map Prod.fst →
      (l.foldl (fun acc iv => acc.set iv.1 iv.2) x)[j]? = x[j]?
  | [], _, _ => rfl
  | iv :: l, x, h => by
    have h1 : j ∉ l.map Prod.fst := by
      intro hm; exact h (by simp [hm])
    have h2 : iv.1 ≠ j := by
      intro he; exact h (by simp [he])
    simp only [List.foldl_cons, getElem?_foldl_set l _ h1,
      List.getElem?_set_ne h2]

theorem map_range_getD {α : Type} (l : List α) (d : α) :
    (List.range l.length).map (fun i => l.getD i d) = l := by
  apply List.ext_getElem
  · simp
  · intro i h1 h2
    simp only [List.getElem_map, List.getElem_range]
    exact List.getD_eq_getElem l d h2

theorem getD_mem_of_lt {α : Type} {l : List α} {n : ℕ} (d : α)
    (h : n < l.length) : l.getD n d ∈ l := by
  rw [List.getD_eq_getElem l d h]
  exact List.getElem_mem h

/- ### argmin / listMin lemmas -/

theorem listMin_le : ∀ {l : List ℚ} {a : ℚ}, a ∈ l → listMin l ≤ a
  | [], _, h => absurd h (List.not_mem_nil _)
  | [c], a, h => by
    simp only [List.mem_singleton] at h
    simp [listMin, h]
  | c :: b :: l, a, h => by
    simp only [listMin]
    rcases List.mem_cons.mp h with rfl | h1
    · exact min_le_left _ _
    · exact le_trans (min_le_right _ _) (listMin_le h1)

theorem argmin_lt_length : ∀ {l : List ℚ}, l ≠ [] → argmin l < l.length
  | [], h => absurd rfl h
  | [_], _ => by simp [argmin]
  | a :: b :: l, _ => by
    simp only [argmin]
    split_ifs
    · simp
    · have := argmin_lt_length (l := b :: l) (by simp)
      simp only [List.length_cons] at this ⊢
      omega

theorem getD_argmin_eq_listMin :
    ∀ {l : List ℚ}, l ≠ [] → l.getD (argmin l) 0 = listMin l
  | [], h => absurd rfl h
  | [_], _ => by simp [argmin, listMin]
  | a :: b :: l, _ => by
    simp only [argmin, listMin]
    split_ifs with h
    · simpa using (min_eq_left h).symm
    · have ih := getD_argmin_eq_listMin (l := b :: l) (by simp)
      have hba : listMin (b :: l) ≤ a := le_of_lt (lt_of_not_le h)
      rw [List.getD_cons_succ, ih, min_eq_right hba]

/- ### Byte-range helpers -/

theorem paddingApply_bytesValid {t : List ℚ} {x : List ℤ}
    (ht : ∀ ti ∈ t, 0 ≤ ti ∧ ti ≤ 1) (hx : bytesValid x) :
    bytesValid (paddingApply t x) := by
  intro b hb
  rcases List.mem_append.mp hb with h | h
  · exact hx b h
  · rcases List.mem_map.mp h with ⟨ti, hti, rfl⟩
    exact truncToInt_byte_range (ht ti hti).1 (ht ti hti).2

theorem headerApply_bytesValid {p : HeaderProblem} {t : List ℚ} {x : List ℤ}
    (ht : ∀ ti ∈ t, 0 ≤ ti ∧ ti ≤ 1) (hx : bytesValid x) :
    bytesValid (headerApply p t x) := by
  intro b hb
  rcases mem_foldl_set _ _ hb with h | h
  · exact hx b h
  · rcases List.mem_map.mp h with ⟨iv, hiv, rfl⟩
    have h2 : iv.2 ∈ t.map fun ti => truncToInt (ti * 255) := (List.of_mem_zip hiv).2
    rcases List.mem_map.mp h2 with ⟨ti, hti, he⟩
    rw [← he]
    exact truncToInt_byte_range (ht ti hti).1 (ht ti hti).2

theorem gammaApply_bytesValid {pop : List (List ℤ)} {t : List ℚ} {x : List ℤ}
    (hpop : ∀ c ∈ pop, bytesValid c) (hx : bytesValid x) :
    bytesValid (gammaApply pop t x) := by
  intro b hb
  rw [gammaApply, foldl_append_eq_flatten] at hb
  rcases List.mem_append.mp hb with h | h
  · exact hx b h
  · rcases List.mem_flatten.mp h with ⟨pref, hpref, hbp⟩
    rcases List.mem_map.mp hpref with ⟨c, hc, rfl⟩
    exact hpop c.1 (List.of_mem_zip hc).1 b (List.take_subset _ _ hbp)

theorem sectionsApply_bytesValid {sp : SectionsProblem} {fresh : ℕ → String}
    {t : List ℚ} {b : PEBinary}
    (hsp : ∀ c ∈ sp.section_population, bytesValid c)
    (hb : ∀ s ∈ b.sections, bytesValid s.content) :
    ∀ s ∈ ((sectionsApply sp fresh t b).2).sections, bytesValid s.content := by
  intro s hs
  simp only [sectionsApply] at hs
  rcases List.mem_append.mp hs with h | h
  · exact hb s h
  · rcases List.mem_map.mp h with ⟨i, _, rfl⟩
    intro v hv
    have hvc : v ∈ sp.section_population.getD i [] := List.take_subset _ _ hv
    by_cases hlt : i < sp.section_population.length
    · exact hsp _ (getD_mem_of_lt [] hlt) v hvc
    · rw [List.getD_eq_default] at hvc
      · exact absurd hvc (List.not_mem_nil v)
      · omega

theorem clamp01_map_mem (u : List ℚ) : ∀ ui ∈ u.map clamp01, 0 ≤ ui ∧ ui ≤ 1 := by
  intro ui hui
  rcases List.mem_map.mp hui with ⟨w, _, rfl⟩
  exact clamp01_mem w

/- ### Header reachability helpers -/

theorem init_starting_point_indexes {p q : HeaderProblem} {x : List ℤ}
    (h : p.init_starting_point x = some q) :
    ∃ n, q.indexes_to_perturb = List.range' 2 58 ++ List.range' 64 n := by
  unfold HeaderProblem.init_starting_point at h
  split at h
  · split at h
    · exact absurd h (by simp)
    · obtain rfl := Option.some.inj h
      exact ⟨_, rfl⟩
  · obtain rfl := Option.some.inj h
    exact ⟨0, by simp⟩

theorem reachable_indexes_shape {q : HeaderProblem} (h : q.Reachable) :
    ∃ n, q.indexes_to_perturb = List.range' 2 58 ++ List.range' 64 n := by
  rcases h with ⟨o, v, rfl⟩ | ⟨p, x, hpx⟩
  · exact ⟨0, by simp [headerInit]⟩
  · exact init_starting_point_indexes hpx

theorem readPEPointer_some_length {x : List ℤ} {P : ℕ}
    (h : readPEPointer x = some P) : 64 ≤ x.length := by
  unfold readPEPointer at h
  split at h
  · rename_i b0 b1 b2 b3 rest heq
    have hlen := congrArg List.length heq
    simp only [List.length_drop, List.length_cons] at hlen
    omega
  · exact absurd h (by simp)

theorem getD_append_right {α : Type} (l1 l2 : List α) (d : α) (i : ℕ)
    (h : i < l2.length) : (l1 ++ l2).getD (l1.length + i) d = l2.getD i d := by
  rw [List.getD_eq_getElem _ d (by rw [List.length_append]; omega),
      List.getD_eq_getElem _ d h]
  rw [List.getElem_append_right (by omega)]
  congr 1
  omega

/- ### Claim theorems -/

/-- C3: for every strategy and every latent vector with components in [0,1],
every decoded byte value lies in [0,255] (given well-formed input bytes and
corpus); decoding is total, and out-of-range latent components are clamped
into [0,1] first (the clamp is spec-modelled in `clamp01`, as the base engine
is not under src/), after which decoding again yields only in-range bytes. -/
theorem decode_byte_range (t : List ℚ) (x : List ℤ) (p : HeaderProblem)
    (pop : List (List ℤ)) (sp : SectionsProblem) (fresh : ℕ → String)
    (b : PEBinary)
    (ht : ∀ ti ∈ t, 0 ≤ ti ∧ ti ≤ 1) (hx : bytesValid x)
    (hpop : ∀ c ∈ pop, bytesValid c)
    (hsp : ∀ c ∈ sp.section_population, bytesValid c)
    (hb : ∀ s ∈ b.sections, bytesValid s.content) :
    bytesValid (paddingApply t x) ∧
    bytesValid (headerApply p t x) ∧
    bytesValid (gammaApply pop t x) ∧
    (∀ s ∈ ((sectionsApply sp fresh t b).2).sections, bytesValid s.content) ∧
    (∀ u : List ℚ, ∀ ui ∈ u.map clamp01, 0 ≤ ui ∧ ui ≤ 1) ∧
    (∀ u : List ℚ, bytesValid (paddingApply (u.map clamp01) x)) ∧
    (∀ u : List ℚ, bytesValid (headerApply p (u.map clamp01) x)) :=
  ⟨paddingApply_bytesValid ht hx,
   headerApply_bytesValid ht hx,
   gammaApply_bytesValid hpop hx,
   sectionsApply_bytesValid hsp hb,
   clamp01_map_mem,
   fun u => paddingApply_bytesValid (clamp01_map_mem u) hx,
   fun u => headerApply_bytesValid (clamp01_map_mem u) hx⟩

theorem decode_byte_range_witness :
    (∀ ti ∈ [(2 / 3 : ℚ)], 0 ≤ ti ∧ ti ≤ 1) ∧
    bytesValid [(0 : ℤ), 255] ∧
    (∀ c ∈ [[(1 : ℤ)]], bytesValid c) ∧
    (∀ c ∈ (sectionsInit [[(2 : ℤ)]] true).section_population, bytesValid c) ∧
    (∀ s ∈ (PEBinary.mk []).sections, bytesValid s.content) ∧
    (bytesValid (paddingApply [(2 / 3 : ℚ)] [(0 : ℤ), 255]) ∧
     bytesValid (headerApply (headerInit false 256) [(2 / 3 : ℚ)] [(0 : ℤ), 255]) ∧
     bytesValid (gammaApply [[(1 : ℤ)]] [(2 / 3 : ℚ)] [(0 : ℤ), 255]) ∧
     (∀ s ∈ ((sectionsApply (sectionsInit [[(2 : ℤ)]] true) (fun _ => "aa")
         [(2 / 3 : ℚ)] (PEBinary.mk [])).2).sections, bytesValid s.content) ∧
     (∀ u : List ℚ, ∀ ui ∈ u.map clamp01, 0 ≤ ui ∧ ui ≤ 1) ∧
     (∀ u : List ℚ, bytesValid (paddingApply (u.map clamp01) [(0 : ℤ), 255])) ∧
     (∀ u : List ℚ, bytesValid (headerApply (headerInit false 256)
        (u.map clamp01) [(0 : ℤ), 255]))) :=
  ⟨by intro ti hti; fin_cases hti <;> norm_num,
   by intro b hb; fin_cases hb <;> norm_num,
   by intro c hc; fin_cases hc; intro b hb; fin_cases hb <;> norm_num,
   by intro c hc; fin_cases hc; intro b hb; fin_cases hb <;> norm_num,
   fun s hs => absurd hs (List.not_mem_nil s),
   decode_byte_range [(2 / 3 : ℚ)] [(0 : ℤ), 255] (headerInit false 256)
     [[(1 : ℤ)]] (sectionsInit [[(2 : ℤ)]] true) (fun _ => "aa") (PEBinary.mk [])
     (by intro ti hti; fin_cases hti <;> norm_num)
     (by intro b hb; fin_cases hb <;> norm_num)
     (by intro c hc; fin_cases hc; intro b hb; fin_cases hb <;> norm_num)
     (by intro c hc; fin_cases hc; intro b hb; fin_cases hb <;> norm_num)
     (fun s hs => absurd hs (List.not_mem_nil s))⟩

/-- C6: the Padding decode appends each latent component scaled by 255 and
floored to an integer byte verbatim after the original bytes; with a 10-byte
budget the all-zero latent appends 10 zero bytes and the all-1.0 latent
appends 10 bytes of value 255. -/
theorem padding_decode_spec (t : List ℚ) (x : List ℤ) (ht : ∀ ti ∈ t, 0 ≤ ti) :
    paddingApply t x = x ++ t.map (fun ti => ⌊ti * 255⌋) ∧
    paddingApply (List.replicate 10 (0 : ℚ)) x = x ++ List.replicate 10 (0 : ℤ) ∧
    paddingApply (List.replicate 10 (1 : ℚ)) x = x ++ List.replicate 10 (255 : ℤ) := by
  refine ⟨?_, ?_, ?_⟩
  · unfold paddingApply
    congr 1
    apply List.map_congr_left
    intro ti hti
    exact truncToInt_eq_floor (by have := ht ti hti; positivity)
  · unfold paddingApply
    congr 1
    rw [List.map_replicate]
    norm_num [truncToInt]
  · unfold paddingApply
    congr 1
    rw [List.map_replicate]
    norm_num [truncToInt]

theorem padding_decode_spec_witness :
    (∀ ti ∈ [(1 / 2 : ℚ)], 0 ≤ ti) ∧
    (paddingApply [(1 / 2 : ℚ)] [7] = [7] ++ [(1 / 2 : ℚ)].map (fun ti => ⌊ti * 255⌋) ∧
     paddingApply (List.replicate 10 (0 : ℚ)) [7] = [7] ++ List.replicate 10 (0 : ℤ) ∧
     paddingApply (List.replicate 10 (1 : ℚ)) [7] = [7] ++ List.replicate 10 (255 : ℤ)) :=
  ⟨by norm_num, padding_decode_spec [(1 / 2 : ℚ)] [7] (by norm_num)⟩

/-- C2: with `optimize_all_dos = False` the perturbed indexes are exactly
[2, 60) independent of the file; with `optimize_all_dos = True` and pointer
`P` read little-endian at offset 60, the indexes are [2,60) ∪ [64,P) when
P > 64 and the base [2,60) when P ≤ 64, with `latent_space_size` equal to the
index count in every case. -/
theorem header_indexes_spec (v : ℤ) (x : List ℤ) (P : ℕ)
    (hP : readPEPointer x = some P) :
    (∀ y : List ℤ, ∃ q, (headerInit false v).init_starting_point y = some q ∧
        q.indexes_to_perturb = List.range' 2 58 ∧
        q.latent_space_size = 58 ∧
        q.latent_space_size = q.indexes_to_perturb.length) ∧
    (∃ q, (headerInit true v).init_starting_point x = some q ∧
        (64 < P → q.indexes_to_perturb = List.range' 2 58 ++ List.range' 64 (P - 64) ∧
          ∀ j, j ∈ q.indexes_to_perturb ↔ ((2 ≤ j ∧ j < 60) ∨ (64 ≤ j ∧ j < P))) ∧
        (P ≤ 64 → q.indexes_to_perturb = List.range' 2 58) ∧
        q.latent_space_size = q.indexes_to_perturb.length) := by
  constructor
  · intro y
    refine ⟨{ optimize_all_dos := false, invalid_value := v,
              indexes_to_perturb := List.range' 2 58, latent_space_size := 58 },
            rfl, rfl, rfl, by simp⟩
  · refine ⟨{ optimize_all_dos := true, invalid_value := v,
              indexes_to_perturb := List.range' 2 58 ++ List.range' 64 (P - 64),
              latent_space_size := (List.range' 2 58 ++ List.range' 64 (P - 64)).length },
            ?_, ?_, ?_, rfl⟩
    · simp [HeaderProblem.init_starting_point, headerInit, hP]
    · intro h64
      refine ⟨rfl, fun j => ?_⟩
      simp only [List.mem_append, List.mem_range'_1]
      omega
    · intro h64
      have hz : P - 64 = 0 := by omega
      simp [hz]

theorem header_indexes_spec_witness :
    readPEPointer (List.replicate 60 (0 : ℤ) ++ [70, 0, 0, 0]) = some 70 ∧
    ((∀ y : List ℤ, ∃ q, (headerInit false 256).init_starting_point y = some q ∧
        q.indexes_to_perturb = List.range' 2 58 ∧
        q.latent_space_size = 58 ∧
        q.latent_space_size = q.indexes_to_perturb.length) ∧
     (∃ q, (headerInit true 256).init_starting_point
          (List.replicate 60 (0 : ℤ) ++ [70, 0, 0, 0]) = some q ∧
        (64 < 70 → q.indexes_to_perturb = List.range' 2 58 ++ List.range' 64 (70 - 64) ∧
          ∀ j, j ∈ q.indexes_to_perturb ↔ ((2 ≤ j ∧ j < 60) ∨ (64 ≤ j ∧ j < 70))) ∧
        (70 ≤ 64 → q.indexes_to_perturb = List.range' 2 58) ∧
        q.latent_space_size = q.indexes_to_perturb.length)) :=
  ⟨by decide, header_indexes_spec 256 (List.replicate 60 (0 : ℤ) ++ [70, 0, 0, 0]) 70
    (by decide)⟩

/-- C5: the raw-append GAMMA decode returns the original bytes followed by, for
each corpus entry in order, the rounded prefix of that entry; the resulting
length is exactly the original length plus the sum of the take amounts; the
take amount is monotonically non-decreasing in the latent component. -/
theorem gamma_append_spec (pop : List (List ℤ)) (t : List ℚ) (x : List ℤ)
    (hlen : t.length = pop.length) (ht : ∀ ti ∈ t, 0 ≤ ti ∧ ti ≤ 1) :
    gammaApply pop t x =
      x ++ ((pop.zip t).map fun c => c.1.take (takeAmount c.1 c.2).toNat).flatten ∧
    (gammaApply pop t x).length =
      x.length + ((pop.zip t).map fun c => (takeAmount c.1 c.2).toNat).sum ∧
    ∀ (c : List ℤ) (a b : ℚ), a ≤ b → takeAmount c a ≤ takeAmount c b := by
  have h1 : gammaApply pop t x =
      x ++ ((pop.zip t).map fun c => c.1.take (takeAmount c.1 c.2).toNat).flatten :=
    foldl_append_eq_flatten _ (pop.zip t) x
  refine ⟨h1, ?_, fun c a b h => takeAmount_mono c h⟩
  rw [h1, List.length_append, List.length_flatten, List.map_map]
  congr 1
  congr 1
  apply List.map_congr_left
  intro c hc
  have hle := (ht c.2 (List.of_mem_zip hc).2).2
  simp only [Function.comp_apply, List.length_take]
  exact min_eq_left (Int.toNat_le.mpr (takeAmount_le_length hle))

theorem gamma_append_spec_witness :
    [(1 / 3 : ℚ), 1].length = [[(1 : ℤ), 2, 3], [4, 5]].length ∧
    (∀ ti ∈ [(1 / 3 : ℚ), 1], 0 ≤ ti ∧ ti ≤ 1) ∧
    gammaApply [[(1 : ℤ), 2, 3], [4, 5]] [(1 / 3 : ℚ), 1] [9] = [9, 1, 4, 5] :=
  ⟨rfl, by intro ti hti; fin_cases hti <;> norm_num, by
    have h := (gamma_append_spec [[(1 : ℤ), 2, 3], [4, 5]] [(1 / 3 : ℚ), 1] [9]
      rfl (by intro ti hti; fin_cases hti <;> norm_num)).1
    have e1 : (takeAmount [(1 : ℤ), 2, 3] (1 / 3 : ℚ)).toNat = 1 := by
      unfold takeAmount
      have hc : (([(1 : ℤ), 2, 3].length : ℚ)) * (1 / 3 : ℚ) = ((1 : ℤ) : ℚ) := by
        norm_num
      rw [hc, roundHalfEven_intCast]
      rfl
    have e2 : (takeAmount [(4 : ℤ), 5] (1 : ℚ)).toNat = 2 := by
      unfold takeAmount
      have hc : (([(4 : ℤ), 5].length : ℚ)) * (1 : ℚ) = ((2 : ℤ) : ℚ) := by
        norm_num
      rw [hc, roundHalfEven_intCast]
      rfl
    rw [h]
    simp only [List.zip_cons_cons, List.zip_nil_right, List.map_cons, List.map_nil,
      e1, e2]
    rfl⟩

/-- C7: the Header decode preserves the file length and leaves every byte at
an offset outside indexes_to_perturb unchanged; in every reachable
configuration the two magic bytes at offsets 0 and 1 are never modified. -/
theorem header_frame_spec (p : HeaderProblem) (t : List ℚ) (x : List ℤ)
    (hp : p.Reachable)
    (hidx : ∀ i ∈ p.indexes_to_perturb, i < x.length) :
    (headerApply p t x).length = x.length ∧
    (∀ j, j ∉ p.indexes_to_perturb → (headerApply p t x)[j]? = x[j]?) ∧
    (headerApply p t x)[0]? = x[0]? ∧
    (headerApply p t x)[1]? = x[1]? := by
  have hframe : ∀ j, j ∉ p.indexes_to_perturb → (headerApply p t x)[j]? = x[j]? := by
    intro j hj
    apply getElem?_foldl_set
    intro hm
    rcases List.mem_map.mp hm with ⟨iv, hiv, rfl⟩
    exact hj (List.of_mem_zip hiv).1
  obtain ⟨n, hn⟩ := reachable_indexes_shape hp
  have h0 : 0 ∉ p.indexes_to_perturb := by
    rw [hn]
    simp only [List.mem_append, List.mem_range'_1]
    omega
  have h1 : 1 ∉ p.indexes_to_perturb := by
    rw [hn]
    simp only [List.mem_append, List.mem_range'_1]
    omega
  exact ⟨length_foldl_set _ _, hframe, hframe 0 h0, hframe 1 h1⟩

theorem header_frame_spec_witness :
    (headerInit false 256).Reachable ∧
    (∀ i ∈ (headerInit false 256).indexes_to_perturb,
      i < (List.replicate 60 (5 : ℤ)).length) ∧
    ((headerApply (headerInit false 256) [(1 : ℚ)] (List.replicate 60 5)).length =
      (List.replicate 60 (5 : ℤ)).length ∧
     (∀ j, j ∉ (headerInit false 256).indexes_to_perturb →
        (headerApply (headerInit false 256) [(1 : ℚ)] (List.replicate 60 5))[j]? =
          (List.replicate 60 (5 : ℤ))[j]?) ∧
     (headerApply (headerInit false 256) [(1 : ℚ)] (List.replicate 60 5))[0]? =
        (List.replicate 60 (5 : ℤ))[0]? ∧
     (headerApply (headerInit false 256) [(1 : ℚ)] (List.replicate 60 5))[1]? =
        (List.replicate 60 (5 : ℤ))[1]?) :=
  ⟨Or.inl ⟨false, 256, rfl⟩, by decide,
   header_frame_spec (headerInit false 256) [(1 : ℚ)] (List.replicate 60 5)
     (Or.inl ⟨false, 256, rfl⟩) (by decide)⟩

set_option maxRecDepth 16384 in
/-- C4 counterexample: a 64-byte file whose 4-byte pointer at offset 60 is
1000, far beyond the file's length; initialization nevertheless succeeds
(no InvalidFormat failure) and extends indexes_to_perturb past the end of the
file, refuting the claim that it fails rather than silently proceeding. -/
theorem header_oob_counterexample :
    readPEPointer (List.replicate 60 (0 : ℤ) ++ [232, 3, 0, 0]) = some 1000 ∧
    (List.replicate 60 (0 : ℤ) ++ [232, 3, 0, 0]).length = 64 ∧
    ((headerInit true 256).init_starting_point
        (List.replicate 60 (0 : ℤ) ++ [232, 3, 0, 0])).isSome = true ∧
    ∃ q, (headerInit true 256).init_starting_point
          (List.replicate 60 (0 : ℤ) ++ [232, 3, 0, 0]) = some q ∧
        999 ∈ q.indexes_to_perturb := by
  have hP : readPEPointer (List.replicate 60 (0 : ℤ) ++ [232, 3, 0, 0]) =
      some 1000 := by decide
  have hinit : (headerInit true 256).init_starting_point
      (List.replicate 60 (0 : ℤ) ++ [232, 3, 0, 0]) =
      some { optimize_all_dos := true, invalid_value := 256,
             indexes_to_perturb := List.range' 2 58 ++ List.range' 64 (1000 - 64),
             latent_space_size :=
               (List.range' 2 58 ++ List.range' 64 (1000 - 64)).length } := by
    decide
  refine ⟨hP, by decide, by rw [hinit]; rfl, ⟨_, hinit, ?_⟩⟩
  simp only [List.mem_append, List.mem_range'_1]
  omega

/-- C4 (amended): initialization never validates the pointer against the file
bounds: whenever the pointer P at offset 60 is readable, init_starting_point
succeeds, setting indexes_to_perturb = [2,60) ∪ [64,P) even when P exceeds the
file length, in which case the perturbation range extends beyond the file's
end; no failure is raised. -/
theorem header_oob_amended (v : ℤ) (x : List ℤ) (P : ℕ)
    (hP : readPEPointer x = some P) :
    ∃ q, (headerInit true v).init_starting_point x = some q ∧
      q.indexes_to_perturb = List.range' 2 58 ++ List.range' 64 (P - 64) ∧
      (x.length < P → ∃ j ∈ q.indexes_to_perturb, x.length ≤ j) := by
  refine ⟨{ optimize_all_dos := true, invalid_value := v,
            indexes_to_perturb := List.range' 2 58 ++ List.range' 64 (P - 64),
            latent_space_size :=
              (List.range' 2 58 ++ List.range' 64 (P - 64)).length },
          ?_, rfl, ?_⟩
  · simp [HeaderProblem.init_starting_point, headerInit, hP]
  · intro hlt
    have h64 := readPEPointer_some_length hP
    refine ⟨P - 1, ?_, by omega⟩
    simp only [List.mem_append, List.mem_range'_1]
    omega

theorem header_oob_amended_witness :
    readPEPointer (List.replicate 60 (0 : ℤ) ++ [100, 0, 0, 0]) = some 100 ∧
    ∃ q, (headerInit true 0).init_starting_point
          (List.replicate 60 (0 : ℤ) ++ [100, 0, 0, 0]) = some q ∧
      q.indexes_to_perturb = List.range' 2 58 ++ List.range' 64 (100 - 64) ∧
      ((List.replicate 60 (0 : ℤ) ++ [100, 0, 0, 0]).length < 100 →
        ∃ j ∈ q.indexes_to_perturb,
          (List.replicate 60 (0 : ℤ) ++ [100, 0, 0, 0]).length ≤ j) :=
  ⟨by decide, header_oob_amended 0 (List.replicate 60 (0 : ℤ) ++ [100, 0, 0, 0])
    100 (by decide)⟩

/-- C1 counterexample: with corpus [[7,7],[9]] and latent vector [0,1] the
first take amount is 0, yet a (zero-length) section is still registered for
that entry: re-parsing the rebuilt binary yields 2 = original + 2 sections,
not original + 1 = the original count plus the number of entries with a
positive take amount, refuting the claim as stated. -/
theorem sections_count_counterexample :
    (buildAndReparse (sectionsApply (sectionsInit [[(7 : ℤ), 7], [9]] true)
        (fun _ => "rnd") [(0 : ℚ), 1] (PEBinary.mk [])).2).sections.length = 2 ∧
    ¬ (buildAndReparse (sectionsApply (sectionsInit [[(7 : ℤ), 7], [9]] true)
        (fun _ => "rnd") [(0 : ℚ), 1] (PEBinary.mk [])).2).sections.length =
      (PEBinary.mk []).sections.length + 1 := by
  have h2 : (buildAndReparse (sectionsApply (sectionsInit [[(7 : ℤ), 7], [9]] true)
      (fun _ => "rnd") [(0 : ℚ), 1] (PEBinary.mk [])).2).sections.length = 2 := rfl
  refine ⟨h2, ?_⟩
  rw [h2]
  simp

/-- C1 (amended): re-parsing the registered-section decode's output yields a
section count equal to the original count plus the total number of corpus
entries — a section is registered for every entry, even when its take amount
is 0 — and each new section's content has length exactly
take_i = round(len(content_i) * t_i). -/
theorem sections_decode_spec (sp : SectionsProblem) (fresh : ℕ → String)
    (t : List ℚ) (b : PEBinary)
    (hd : sp.latent_space_size = sp.section_population.length)
    (hlen : t.length = sp.latent_space_size)
    (ht : ∀ ti ∈ t, 0 ≤ ti ∧ ti ≤ 1) :
    (buildAndReparse (sectionsApply sp fresh t b).2).sections.length =
      b.sections.length + sp.latent_space_size ∧
    ∀ i, i < sp.latent_space_size →
      ((buildAndReparse (sectionsApply sp fresh t b).2).sections.getD
          (b.sections.length + i) (PESection.mk "" [])).content.length =
        (takeAmount (sp.section_population.getD i []) (t.getD i 0)).toNat := by
  constructor
  · simp [buildAndReparse, sectionsApply]
  · intro i hi
    have hadded : (buildAndReparse (sectionsApply sp fresh t b).2).sections =
        b.sections ++ (List.range sp.latent_space_size).map (fun i =>
          PESection.mk (sectionName sp fresh i)
            ((sp.section_population.getD i []).take
              (takeAmount (sp.section_population.getD i []) (t.getD i 0)).toNat)) :=
      rfl
    rw [hadded, getD_append_right _ _ _ i (by simpa using hi)]
    have hil : i < ((List.range sp.latent_space_size).map (fun i =>
        PESection.mk (sectionName sp fresh i)
          ((sp.section_population.getD i []).take
            (takeAmount (sp.section_population.getD i []) (t.getD i 0)).toNat))).length := by
      simpa using hi
    rw [List.getD_eq_getElem _ _ hil]
    simp only [List.getElem_map, List.getElem_range, List.length_take]
    have hmem : t.getD i 0 ∈ t := getD_mem_of_lt 0 (by omega)
    exact min_eq_left (Int.toNat_le.mpr (takeAmount_le_length (ht _ hmem).2))

theorem sections_decode_spec_witness :
    (sectionsInit [[(5 : ℤ), 6], [7]] true).latent_space_size =
      (sectionsInit [[(5 : ℤ), 6], [7]] true).section_population.length ∧
    [(1 : ℚ), 1].length = (sectionsInit [[(5 : ℤ), 6], [7]] true).latent_space_size ∧
    (∀ ti ∈ [(1 : ℚ), 1], 0 ≤ ti ∧ ti ≤ 1) ∧
    ((buildAndReparse (sectionsApply (sectionsInit [[(5 : ℤ), 6], [7]] true)
        (fun _ => "zz") [(1 : ℚ), 1] (PEBinary.mk [])).2).sections.length =
      (PEBinary.mk []).sections.length +
        (sectionsInit [[(5 : ℤ), 6], [7]] true).latent_space_size ∧
     ∀ i, i < (sectionsInit [[(5 : ℤ), 6], [7]] true).latent_space_size →
      ((buildAndReparse (sectionsApply (sectionsInit [[(5 : ℤ), 6], [7]] true)
          (fun _ => "zz") [(1 : ℚ), 1] (PEBinary.mk [])).2).sections.getD
          ((PEBinary.mk []).sections.length + i) (PESection.mk "" [])).content.length =
        (takeAmount ((sectionsInit [[(5 : ℤ), 6], [7]] true).section_population.getD
            i []) ([(1 : ℚ), 1].getD i 0)).toNat) :=
  ⟨rfl, rfl, by intro ti hti; fin_cases hti <;> norm_num,
   sections_decode_spec (sectionsInit [[(5 : ℤ), 6], [7]] true) (fun _ => "zz")
     [(1 : ℚ), 1] (PEBinary.mk []) rfl rfl
     (by intro ti hti; fin_cases hti <;> norm_num)⟩

/-- C8: once a best solution's name list has been recorded (best_names_
non-empty, with one name per corpus entry), decoding names its injected
sections exactly with the recorded best names in order and does not depend on
the random-name stream at all; fresh random names are used only while
best_names_ is empty. -/
theorem sections_name_continuity (sp : SectionsProblem)
    (fresh fresh' : ℕ → String) (t : List ℚ) (b : PEBinary) :
    (sp.best_names_ ≠ [] →
      sp.best_names_.length = sp.latent_space_size →
      sectionsApply sp fresh t b = sectionsApply sp fresh' t b ∧
      (sectionsApply sp fresh t b).1.names_ = sp.names_ ++ [sp.best_names_] ∧
      ((sectionsApply sp fresh t b).2).sections.map PESection.name =
        b.sections.map PESection.name ++ sp.best_names_) ∧
    (sp.best_names_ = [] →
      (sectionsApply sp fresh t b).1.names_ =
        sp.names_ ++ [(List.range sp.latent_space_size).map fresh]) := by
  constructor
  · intro hne hlen
    have hfun : sectionName sp fresh = sectionName sp fresh' := by
      funext i
      unfold sectionName
      rw [if_neg hne, if_neg hne]
    have hnames : (List.range sp.latent_space_size).map (sectionName sp fresh) =
        sp.best_names_ := by
      have hcongr : (List.range sp.latent_space_size).map (sectionName sp fresh) =
          (List.range sp.latent_space_size).map (fun i => sp.best_names_.getD i "") := by
        apply List.map_congr_left
        intro i _
        unfold sectionName
        rw [if_neg hne]
      rw [hcongr, ← hlen, map_range_getD]
    refine ⟨?_, ?_, ?_⟩
    · unfold sectionsApply
      rw [hfun]
    · simp only [sectionsApply, hnames]
    · simp only [sectionsApply, List.map_append, List.map_map]
      congr 1
  · intro hemp
    have : (List.range sp.latent_space_size).map (sectionName sp fresh) =
        (List.range sp.latent_space_size).map fresh := by
      apply List.map_congr_left
      intro i _
      unfold sectionName
      rw [if_pos hemp]
    simp only [sectionsApply, this]

theorem sections_name_continuity_witness :
    (let spw : SectionsProblem :=
      { section_population := [[(5 : ℤ)], [6]], latent_space_size := 2,
        random_names := true, names_ := [], best_names_ := ["ab", "cd"] };
     sectionsApply spw (fun _ => "r1") [(1 : ℚ), 1] (PEBinary.mk []) =
        sectionsApply spw (fun _ => "r2") [(1 : ℚ), 1] (PEBinary.mk []) ∧
     (sectionsApply spw (fun _ => "r1") [(1 : ℚ), 1] (PEBinary.mk [])).1.names_ =
        [] ++ [["ab", "cd"]] ∧
     ((sectionsApply spw (fun _ => "r1") [(1 : ℚ), 1] (PEBinary.mk [])).2).sections.map
        PESection.name = (PEBinary.mk []).sections.map PESection.name ++ ["ab", "cd"]) :=
  (sections_name_continuity
    { section_population := [[(5 : ℤ)], [6]], latent_space_size := 2,
      random_names := true, names_ := [], best_names_ := ["ab", "cd"] }
    (fun _ => "r1") (fun _ => "r2") [(1 : ℚ), 1] (PEBinary.mk [])).1
    (by simp) rfl

/-- C9: after _export_internal_results, best_names_ equals the name list
recorded for the candidate whose fitness is the minimum of the fitness history
excluding index 0 (the unperturbed baseline); the alignment of names_ with
fitness_[1:] is spec-modelled (see exportInternalResults). -/
theorem sections_export_best_names (sp : SectionsProblem) (fitness : List ℚ)
    (hal : sp.names_.length + 1 = fitness.length) (h2 : 2 ≤ fitness.length) :
    ∃ i, i < sp.names_.length ∧
      (exportInternalResults sp fitness).best_names_ = sp.names_.getD i [] ∧
      fitness.getD (i + 1) 0 = listMin (fitness.drop 1) ∧
      ∀ j, 1 ≤ j → j < fitness.length →
        listMin (fitness.drop 1) ≤ fitness.getD j 0 := by
  have hne : fitness.drop 1 ≠ [] := by
    intro he
    have hlen := congrArg List.length he
    simp only [List.length_drop, List.length_nil] at hlen
    omega
  refine ⟨argmin (fitness.drop 1), ?_, rfl, ?_, ?_⟩
  · have := argmin_lt_length hne
    rw [List.length_drop] at this
    omega
  · have hmin := getD_argmin_eq_listMin hne
    rw [← hmin, List.getD_eq_getElem?_getD, List.getD_eq_getElem?_getD,
      List.getElem?_drop]
    congr 2
    omega
  · intro j h1j hjlen
    have hj : j - 1 < (fitness.drop 1).length := by
      rw [List.length_drop]; omega
    have hmem := getD_mem_of_lt (0 : ℚ) hj
    have heq : (fitness.drop 1).getD (j - 1) 0 = fitness.getD j 0 := by
      rw [List.getD_eq_getElem?_getD, List.getD_eq_getElem?_getD,
        List.getElem?_drop]
      congr 2
      omega
    rw [← heq]
    exact listMin_le hmem

theorem sections_export_best_names_witness :
    (let spw : SectionsProblem :=
      { section_population := [[(5 : ℤ)]], latent_space_size := 1,
        random_names := true, names_ := [["a"], ["b"]], best_names_ := [] };
     ∃ i, i < spw.names_.length ∧
      (exportInternalResults spw [(5 : ℚ), 3, 1]).best_names_ =
        spw.names_.getD i [] ∧
      [(5 : ℚ), 3, 1].getD (i + 1) 0 = listMin ([(5 : ℚ), 3, 1].drop 1) ∧
      ∀ j, 1 ≤ j → j < [(5 : ℚ), 3, 1].length →
        listMin ([(5 : ℚ), 3, 1].drop 1) ≤ [(5 : ℚ), 3, 1].getD j 0) :=
  sections_export_best_names
    { section_population := [[(5 : ℤ)]], latent_space_size := 1,
      random_names := true, names_ := [["a"], ["b"]], best_names_ := [] }
    [(5 : ℚ), 3, 1] rfl (by norm_num)

/-- C10: the random_names flag is stored at construction and never consulted:
for every latent vector, binary and internal name state, decoding behaves
identically whatever the flag's value — same names log, same best names, same
rebuilt binary — both for a freshly constructed problem and for an arbitrary
internal state. -/
theorem sections_random_names_unused (sp : SectionsProblem)
    (pop : List (List ℤ)) (fresh : ℕ → String) (t : List ℚ) (b : PEBinary)
    (rb rb' : Bool) :
    ((sectionsApply { sp with random_names := rb } fresh t b).1.names_ =
      (sectionsApply { sp with random_names := rb' } fresh t b).1.names_) ∧
    ((sectionsApply { sp with random_names := rb } fresh t b).1.best_names_ =
      (sectionsApply { sp with random_names := rb' } fresh t b).1.best_names_) ∧
    ((sectionsApply { sp with random_names := rb } fresh t b).2 =
      (sectionsApply { sp with random_names := rb' } fresh t b).2) ∧
    ((sectionsApply (sectionsInit pop rb) fresh t b).1.names_ =
      (sectionsApply (sectionsInit pop rb') fresh t b).1.names_) ∧
    ((sectionsApply (sectionsInit pop rb) fresh t b).2 =
      (sectionsApply (sectionsInit pop rb') fresh t b).2) :=
  ⟨rfl, rfl, rfl, rfl, rfl⟩

end Detexe
